import Mathlib

/-!
Verification of the md-ui molecular-dynamics visualization UI.

This file gives a shallow embedding, in Lean 4, of the parts of the
repository that the verified properties concern:

* the data model (`src/types/simulation.ts`, `src/types/chainMetadata.ts`);
* the chain grouping and metadata computation
  (`calculateChainInfo` in `src/types/chainMetadata.ts`, and the
  `chainMetadataMap` memo of the `MolecularView` component);
* the PDB parser (`parsePDB` in `src/utils/pdbParser.ts`) and the
  upload/playback wiring of `MolecularDynamicsPlayground`;
* the WebGPU compute-pass driver (`runComputePass` in
  `src/gpu/computePipeline.ts`), the WGSL update kernel
  (`src/gpu/shaders/atomUpdate.wgsl`), and the per-frame readback loop of
  the `GPUAtomRenderer` component.

Modelling conventions:

* JavaScript number fields that no verified property inspects numerically
  (coordinates, color channels) are modelled over `Rat`, which contains all
  the exactly-representable values appearing in the sources (0, 0.5, 1.0).
* JavaScript plain objects used as string-keyed maps are modelled as
  insertion-ordered association lists (`JSObj`), with the ECMAScript
  property-enumeration order (array-index-like keys first, in ascending
  numeric order, then the remaining keys in insertion order) implemented
  explicitly by `objEntries`.
* `Array.prototype.sort` with a consistent comparator is stable
  (ECMAScript 2019 and later); it is modelled by `List.insertionSort`,
  which is stable for the total preorders used here.
-/

set_option linter.unusedVariables false

namespace MdUi


/-- Color record of `src/types/simulation.ts` (`RGBColor`); the channels are
0–1 numbers in the source, modelled over `Rat`. -/
structure RGBColor where
  r : Rat
  g : Rat
  b : Rat
deriving DecidableEq

/-- Coordinate triple of `src/types/simulation.ts` (`Coordinates`). -/
structure Coordinates where
  x : Rat
  y : Rat
  z : Rat
deriving DecidableEq

/-- Particle record of `src/types/simulation.ts` (`Atom`). -/
structure Atom where
  x : Rat
  y : Rat
  z : Rat
  element : String
  name : String
  residue : String
  chain : String
  residue_index : Option Int
  color : RGBColor
deriving DecidableEq

/-- Bounding box of `src/types/simulation.ts` (`SimulationBounds`). -/
structure SimulationBounds where
  min : Coordinates
  max : Coordinates
  center : Coordinates
deriving DecidableEq

/-- Metadata record of `src/types/simulation.ts` (`SimulationMetadata`).
The `title` field is declared in the TypeScript interface but is not set by
`parsePDB`, so it is modelled as optional. -/
structure SimulationMetadata where
  source : String
  title : Option String
  num_frames : Nat
  num_atoms : Nat
  bounds : SimulationBounds
deriving DecidableEq

/-- Trajectory document of `src/types/simulation.ts` (`TrajectoryData`). -/
structure TrajectoryData where
  metadata : SimulationMetadata
  frames : List (List Atom)
deriving DecidableEq

/-- Residue-index range of `src/types/chainMetadata.ts` (`ChainInfo.residueRange`).
The second source field is named `end`, a reserved word in Lean; it is named
`stop` here. -/
structure ResidueRange where
  start : Int
  stop : Int
deriving DecidableEq

/-- Chain summary of `src/types/chainMetadata.ts` (`ChainInfo`). -/
structure ChainInfo where
  chainId : String
  atomCount : Nat
  residueCount : Nat
  residueRange : ResidueRange
  commonResidues : List String
deriving DecidableEq

/-! ### JavaScript object model

A JavaScript plain object used as a string-keyed map keeps, for its
non-index string keys, the order in which the keys were first created;
assigning to an existing key keeps its position.  `Object.entries`
enumerates array-index-like keys first, in ascending numeric order, and the
remaining string keys afterwards in creation order. -/

/-- Insertion-ordered association list modelling a JS plain object. -/
abbrev JSObj (α : Type) : Type := List (String × α)

/-- Property read `o[k]`, `undefined` modelled as `none`. -/
def jsGet {α : Type} : JSObj α → String → Option α
  | [], _ => none
  | (k', v) :: rest, k => if k' = k then some v else jsGet rest k

/-- Property write `o[k] = v`: updates an existing key in place, appends a
fresh key at the end. -/
def jsSet {α : Type} : JSObj α → String → α → JSObj α
  | [], k, v => [(k, v)]
  | (k', v') :: rest, k, v =>
      if k' = k then (k', v) :: rest else (k', v') :: jsSet rest k v

/-- Key list of an object, in storage order. -/
def jsKeys {α : Type} (o : JSObj α) : List String := o.map Prod.fst

/-- Numeric value of a digit string (used only on all-digit keys). -/
def digitsToNat (cs : List Char) : Nat :=
  cs.foldl (fun n c => n * 10 + (c.toNat - 48)) 0

/-- An ECMAScript array-index property name: a canonical decimal numeral
(no leading zero except "0" itself) whose value is below 2^32 - 1. -/
def isArrayIndex (s : String) : Bool :=
  let cs := s.toList
  decide (cs ≠ []) && cs.all Char.isDigit &&
    (decide (cs = ['0']) || decide (cs.headD '0' ≠ '0')) &&
    decide (digitsToNat cs < 4294967295)

/-- Numeric sort key for array-index-like property names. -/
def keyNat {α : Type} (p : String × α) : Nat := digitsToNat p.1.toList

/-- Enumeration order of `Object.entries` / `Object.keys`: array-index-like
keys in ascending numeric order first, then the other keys in insertion
order. -/
def objEntries {α : Type} (o : JSObj α) : List (String × α) :=
  List.insertionSort (fun p q => keyNat p ≤ keyNat q)
      (o.filter (fun p => isArrayIndex p.1))
    ++ o.filter (fun p => !isArrayIndex p.1)

/-! ### A generic JS upsert loop

Both `MolecularView`'s chain grouping

```
atoms.forEach(atom => {
    if (!chainGroups[atom.chain]) chainGroups[atom.chain] = [];
    chainGroups[atom.chain].push(atom);
});
```

and `calculateChainInfo`'s residue-frequency map

```
atoms.forEach(atom => {
    residueFrequency[resName] = (residueFrequency[resName] || 0) + 1;
});
```

are folds that read the current value at a key (with a default for a
missing key) and write back an updated value.  `jsUpsertFold` captures
that shape once; the two source loops are its two instantiations. -/

/-- Upsert loop over a list of atoms: groups/accumulates by the key
`kf a`, starting a missing key at `init` and updating with `upd`. -/
def jsUpsertFold {β : Type} (kf : Atom → String) (init : β) (upd : β → Atom → β)
    (atoms : List Atom) : JSObj β :=
  atoms.foldl (fun o a => jsSet o (kf a) (upd ((jsGet o (kf a)).getD init) a)) []

/-! ### Chain metadata (`src/types/chainMetadata.ts`) -/

/-- Step of the `uniqueResidues` Set: `if (atom.residue_index !== undefined)
uniqueResidues.add(atom.residue_index)`.  Only the resulting size is used, so
the Set is modelled as the deduplicated list of present residue indices. -/
def uniqueResidues (atoms : List Atom) : List Int :=
  (atoms.filterMap (fun a => a.residue_index)).dedup

/-- Accumulator step for `minResidue = Math.min(minResidue, atom.residue_index)`
guarded by `atom.residue_index !== undefined`; the initial `Infinity` sentinel
is modelled as `none` (and `Math.min(Infinity, r) = r`). -/
def minResidueStep (m : Option Int) (a : Atom) : Option Int :=
  match a.residue_index with
  | some r => some (match m with | none => r | some x => min x r)
  | none => m

/-- Accumulator step for `maxResidue = Math.max(maxResidue, atom.residue_index)`
with the `-Infinity` sentinel modelled as `none`. -/
def maxResidueStep (m : Option Int) (a : Atom) : Option Int :=
  match a.residue_index with
  | some r => some (match m with | none => r | some x => max x r)
  | none => m

/-- Value of the `minResidue` accumulator after the `atoms.forEach` loop. -/
def minResidueFold (atoms : List Atom) : Option Int := atoms.foldl minResidueStep none

/-- Value of the `maxResidue` accumulator after the `atoms.forEach` loop. -/
def maxResidueFold (atoms : List Atom) : Option Int := atoms.foldl maxResidueStep none

/-- Frequency map built by
`residueFrequency[resName] = (residueFrequency[resName] || 0) + 1`. -/
def residueFrequency (atoms : List Atom) : JSObj Nat :=
  jsUpsertFold (fun a => a.residue) 0 (fun n _ => n + 1) atoms

/-- Descending-count comparator `([, a], [, b]) => b - a` of the source,
as the total preorder realised by a stable sort. -/
def byCountDesc (p q : String × Nat) : Prop := q.2 ≤ p.2

instance : DecidableRel byCountDesc := fun p q => inferInstanceAs (Decidable (q.2 ≤ p.2))

instance : IsTotal (String × Nat) byCountDesc := ⟨fun p q => le_total q.2 p.2⟩

instance : IsTrans (String × Nat) byCountDesc :=
  ⟨fun _ _ _ h1 h2 => le_trans h2 h1⟩

/-- The `commonResidues` pipeline of `calculateChainInfo`:
`Object.entries(residueFrequency).sort(([, a], [, b]) => b - a).slice(0, 5)
.map(([name]) => name)`.  `Array.prototype.sort` is stable, so it is modelled
by `List.insertionSort`, which is stable for the total preorder
`byCountDesc`. -/
def commonResiduesOf (atoms : List Atom) : List String :=
  ((List.insertionSort byCountDesc (objEntries (residueFrequency atoms))).take 5).map
    Prod.fst

/-- Shallow embedding of `calculateChainInfo` (`src/types/chainMetadata.ts`). -/
def calculateChainInfo (atoms : List Atom) (chainId : String) : ChainInfo :=
  let atomCount := atoms.length
  let residueCount := (uniqueResidues atoms).length
  let minResidue := minResidueFold atoms
  let maxResidue := maxResidueFold atoms
  let commonResidues := commonResiduesOf atoms
  { chainId := chainId
    atomCount := atomCount
    residueCount := residueCount
    residueRange :=
      { start := match minResidue with | none => 0 | some m => m
        stop := match maxResidue with | none => 0 | some m => m }
    commonResidues := commonResidues }

/-! ### Chain grouping (`MolecularView`'s `chainMetadataMap` memo) -/

/-- Grouping loop of `MolecularView`:
`atoms.forEach(atom => { if (!chainGroups[atom.chain]) chainGroups[atom.chain]
= []; chainGroups[atom.chain].push(atom); })`. -/
def chainGroups (atoms : List Atom) : JSObj (List Atom) :=
  jsUpsertFold (fun a => a.chain) [] (fun g a => g ++ [a]) atoms

/-- Metadata map built by `Object.entries(chainGroups).forEach(([chainId,
chainAtoms]) => { metadataMap[chainId] = calculateChainInfo(chainAtoms,
chainId); })`. -/
def chainMetadataMap (atoms : List Atom) : JSObj ChainInfo :=
  (objEntries (chainGroups atoms)).foldl
    (fun m p => jsSet m p.1 (calculateChainInfo p.2 p.1)) []

/-! ### PDB parser (`src/utils/pdbParser.ts`) -/

/-- JavaScript `s.substring(a, b)` over code points (all characters in a PDB
line are ASCII). -/
def jsSubstring (s : String) (a b : Nat) : String :=
  String.mk ((s.toList.drop a).take (b - a))

/-- Model of `s.replace(/\d/, '')`: removes the first digit, if any. -/
def removeFirstDigitAux : List Char → List Char
  | [] => []
  | c :: rest => if c.isDigit then rest else c :: removeFirstDigitAux rest

/-- Removal of the first digit of a string (`/\d/` replace with empty). -/
def removeFirstDigit (s : String) : String := String.mk (removeFirstDigitAux s.toList)

/-- JavaScript `a || b` on strings: the empty string is falsy. -/
def jsOrString (a b : String) : String := if a = "" then b else a

/-- Integer model of `parseFloat` on a PDB coordinate field: sign and integer
digits of the trimmed field.  Fractional digits and NaN are not modelled; no
verified claim inspects a coordinate value. -/
def parseCoordinate (s : String) : Rat :=
  let t := s.trim.toList
  match t with
  | '-' :: rest => -(digitsToNat (rest.takeWhile (fun c => c.isDigit)) : Rat)
  | _ => (digitsToNat (t.takeWhile (fun c => c.isDigit)) : Rat)

/-- CPK color table of `src/utils/pdbParser.ts`. -/
def CPK_COLORS : JSObj RGBColor :=
  [ ("C", { r := 1/2, g := 1/2, b := 1/2 }),
    ("N", { r := 0, g := 0, b := 1 }),
    ("O", { r := 1, g := 0, b := 0 }),
    ("S", { r := 1, g := 1, b := 0 }),
    ("P", { r := 1, g := 1/2, b := 0 }),
    ("H", { r := 1, g := 1, b := 1 }) ]

/-- Parse of one PDB line inside the `for (const line of lines)` loop:
returns the pushed atom for `ATOM`/`HETATM` records and `none` otherwise. -/
def parseAtomLine (line : String) : Option Atom :=
  if line.startsWith "ATOM" || line.startsWith "HETATM" then
    let element :=
      jsOrString ((jsSubstring line 76 78).trim)
        (removeFirstDigit ((jsSubstring line 12 14).trim))
    let x := parseCoordinate (jsSubstring line 30 38)
    let y := parseCoordinate (jsSubstring line 38 46)
    let z := parseCoordinate (jsSubstring line 46 54)
    let atomName := (jsSubstring line 12 16).trim
    let residue := (jsSubstring line 17 20).trim
    let chain := (jsSubstring line 21 22).trim
    let color :=
      (jsGet CPK_COLORS element.toUpper).getD
        ((jsGet CPK_COLORS "C").getD { r := 1/2, g := 1/2, b := 1/2 })
    some
      { x := x, y := y, z := z, element := element, name := atomName,
        residue := residue, chain := chain, residue_index := none, color := color }
  else none

/-- Minimum of a value list, with the `Infinity` start modelled as `none`. -/
def foldMinQ (l : List Rat) : Option Rat :=
  l.foldl (fun m v => some (match m with | none => v | some x => min x v)) none

/-- Maximum of a value list, with the `-Infinity` start modelled as `none`. -/
def foldMaxQ (l : List Rat) : Option Rat :=
  l.foldl (fun m v => some (match m with | none => v | some x => max x v)) none

/-- Shallow embedding of `parsePDB` (`src/utils/pdbParser.ts`): scans the
lines, collects the `ATOM`/`HETATM` atoms, computes bounds and center, and
returns a single-frame trajectory whose `num_atoms` is the parsed atom count.
The `Infinity` sentinels that survive in `bounds` when no atom is present are
modelled as 0; no verified claim inspects `bounds`. -/
def parsePDB (content : String) (fileName : String) : TrajectoryData :=
  let lines := content.splitOn "\n"
  let atoms := lines.filterMap parseAtomLine
  let numAtoms := atoms.length
  let xs := atoms.map (fun a => a.x)
  let ys := atoms.map (fun a => a.y)
  let zs := atoms.map (fun a => a.z)
  let center : Coordinates :=
    if numAtoms > 0 then
      { x := xs.sum / (numAtoms : Rat), y := ys.sum / (numAtoms : Rat),
        z := zs.sum / (numAtoms : Rat) }
    else { x := 0, y := 0, z := 0 }
  { metadata :=
      { source := fileName
        title := none
        num_frames := 1
        num_atoms := numAtoms
        bounds :=
          { min := { x := (foldMinQ xs).getD 0, y := (foldMinQ ys).getD 0,
                     z := (foldMinQ zs).getD 0 }
            max := { x := (foldMaxQ xs).getD 0, y := (foldMaxQ ys).getD 0,
                     z := (foldMaxQ zs).getD 0 }
            center := center } }
    frames := [atoms] }

/-! ### Playground page (`MolecularDynamicsPlayground` in `src/pages`) -/

/-- React state of `MolecularDynamicsPlayground` that the verified claims
concern: `trajectory`, `currentFrame`, `isPlaying`. -/
structure PlaygroundState where
  trajectory : TrajectoryData
  currentFrame : Nat
  isPlaying : Bool
deriving DecidableEq

/-- Combined effect of the upload callback `onDataLoaded = setTrajectory`
and the `useEffect` on `[trajectory]` that runs `setCurrentFrame(0);
setIsPlaying(true)`: the store is swapped wholesale, with no validation of
the incoming document. -/
def handleDataLoaded (s : PlaygroundState) (data : TrajectoryData) : PlaygroundState :=
  { trajectory := data, currentFrame := 0, isPlaying := true }

/-- Frame advance of the playback interval:
`setCurrentFrame((prev) => (prev + 1) % totalFrames)`. -/
def advanceFrame (prev totalFrames : Nat) : Nat := (prev + 1) % totalFrames

/-- Iterated frame advance: `k` consecutive timer ticks. -/
def iterAdvance (totalFrames : Nat) : Nat → Nat → Nat
  | 0, prev => prev
  | k + 1, prev => iterAdvance totalFrames k (advanceFrame prev totalFrames)

/-! ### Selection state (`MolecularView` in `src/components`) -/

/-- Event alphabet of the selection state: the two handlers
`handleChainSelect` / `handleChainDeselect`, and a trajectory swap (a change
of the `trajectory` prop; `MolecularView` stays mounted across it). -/
inductive ViewEvent where
  | select (chainId : String)
  | deselect
  | loadTrajectory (data : TrajectoryData)

/-- Transition of the `selectedChain` React state.  `handleChainSelect`
stores the chain id, `handleChainDeselect` stores `null`; no effect in
`MolecularView` reacts to a trajectory change, and React preserves
`useState` state across prop changes of a mounted component, so a
trajectory load leaves the selection untouched. -/
def viewStep (selectedChain : Option String) : ViewEvent → Option String
  | ViewEvent.select c => some c
  | ViewEvent.deselect => none
  | ViewEvent.loadTrajectory _ => selectedChain

/-- Initial value of `useState<string | null>(null)`. -/
def initialSelectedChain : Option String := none

/-! ### GPU renderer frame loop (`GPUAtomRenderer` in `src/components`) -/

/-- Abstraction of the `GPUAtomRenderer` per-frame state: `ready` models the
guard `if (!gpuContext || !pipelineRef.current || !bindGroupRef.current)
return;`, `meshAttached` models `meshRef.current` being non-null,
`outputBufferSet` models `outputBufferRef.current` being non-null,
`pendingReadbacks` counts staging-buffer readbacks whose `mapAsync` has not
yet resolved, and `dispatchesIssued` counts `runComputePass` calls. -/
structure RendererState where
  ready : Bool
  meshAttached : Bool
  outputBufferSet : Bool
  pendingReadbacks : Nat
  dispatchesIssued : Nat
deriving DecidableEq

/-- One `useFrame` callback invocation: when the pipeline is ready it
unconditionally calls `runComputePass` (one more dispatch, in both branches
below) and then starts `updateMesh()`, whose first statement is the guard
`if (!meshRef.current || !outputBufferRef.current) return;` — only past
that guard is a staging buffer created, a copy submitted and `mapAsync`
awaited (one more pending readback).  No branch consults a previously
pending readback. -/
def frameTick (s : RendererState) : RendererState :=
  if s.ready then
    if s.meshAttached && s.outputBufferSet then
      { s with pendingReadbacks := s.pendingReadbacks + 1,
               dispatchesIssued := s.dispatchesIssued + 1 }
    else
      { s with dispatchesIssued := s.dispatchesIssued + 1 }
  else s

/-- Lifecycle events of `GPUAtomRenderer`: the context, pipeline and bind
group becoming ready (first and third `useEffect`), buffer creation (second
`useEffect`, setting `outputBufferRef`), one `useFrame` invocation, and the
resolution of one pending `mapAsync` (the tail of `updateMesh`, which unmaps
and destroys the staging buffer).  No event attaches the mesh ref:
`meshRef` is initialized to `null` and no element of the JSX that
`GPUAtomRenderer` returns carries `ref={meshRef}`, so `meshRef.current`
stays `null` for the component's whole lifetime. -/
inductive RendererEvent where
  | contextReady
  | buffersCreated
  | frame
  | readbackDone
deriving DecidableEq

/-- State transition for one lifecycle event. -/
def rendererStep (s : RendererState) : RendererEvent → RendererState
  | RendererEvent.contextReady => { s with ready := true }
  | RendererEvent.buffersCreated => { s with outputBufferSet := true }
  | RendererEvent.frame => frameTick s
  | RendererEvent.readbackDone => { s with pendingReadbacks := s.pendingReadbacks - 1 }

/-- Mount-time state: all refs null, nothing pending. -/
def rendererInit : RendererState :=
  { ready := false, meshAttached := false, outputBufferSet := false,
    pendingReadbacks := 0, dispatchesIssued := 0 }

/-! ### Compute pass (`src/gpu/computePipeline.ts`) -/

/-- GPU commands recorded by `runComputePass`, in submission order. -/
inductive GPUCommand where
  | setPipeline
  | setBindGroup (index : Nat)
  | dispatchWorkgroups (count : Nat)
  | endPass
  | submit
deriving DecidableEq

/-- Ceiling division as computed by `Math.ceil(atomCount / workgroupSize)`
(exact for every JavaScript array length, since `n / 64` is an exact
double for `n < 2^53`). -/
def jsCeilDiv (n k : Nat) : Nat := (n + k - 1) / k

/-- Workgroup size fixed by `@workgroup_size(64)` and mirrored by
`const workgroupSize = 64` in `runComputePass`. -/
def workgroupSize : Nat := 64

/-- Shallow embedding of `runComputePass` as the list of commands it
records and submits: set pipeline, set bind group 0, one
`dispatchWorkgroups(Math.ceil(atomCount / 64))`, end the pass, submit. -/
def runComputePass (atomCount : Nat) : List GPUCommand :=
  let numWorkgroups := jsCeilDiv atomCount workgroupSize
  [GPUCommand.setPipeline, GPUCommand.setBindGroup 0,
   GPUCommand.dispatchWorkgroups numWorkgroups, GPUCommand.endPass,
   GPUCommand.submit]

/-- Dispatch calls contained in a command list. -/
def dispatchCounts (cmds : List GPUCommand) : List Nat :=
  cmds.filterMap (fun c =>
    match c with
    | GPUCommand.dispatchWorkgroups n => some n
    | _ => none)

/-! ### Update kernel (`src/gpu/shaders/atomUpdate.wgsl`) -/

/-- Element type of the storage buffers: `vec4<f32>` `(x, y, z, radius)`;
the kernel only copies values, so `f32` is modelled over `Rat`. -/
abbrev Vec4F : Type := Rat × Rat × Rat × Rat

/-- A buffer access performed by a kernel invocation. -/
inductive BufferAccess where
  | readIn (index : Nat)
  | writeOut (index : Nat)
deriving DecidableEq

/-- Index touched by a buffer access. -/
def BufferAccess.index : BufferAccess → Nat
  | readIn i => i
  | writeOut i => i

/-- Shallow embedding of the WGSL `main` entry point for one invocation,
returning the output buffer after the invocation and the list of buffer
accesses it performed.  `if atomIndex >= arrayLength(&atomsIn) { return; }`
exits before any access; otherwise the invocation reads
`atomsIn[atomIndex]` and writes it to `atomsOut[atomIndex]`. -/
def kernelMain (atomsIn atomsOut : List Vec4F) (atomIndex : Nat) :
    List Vec4F × List BufferAccess :=
  if h : atomsIn.length ≤ atomIndex then
    (atomsOut, [])
  else
    (atomsOut.set atomIndex (atomsIn.get ⟨atomIndex, Nat.lt_of_not_le h⟩),
     [BufferAccess.readIn atomIndex, BufferAccess.writeOut atomIndex])

/-! ### Auxiliary definitions for statements and concrete checks -/

/-- Names of the residues of a group, in group order. -/
def residueNames (atoms : List Atom) : List String := atoms.map (fun a => a.residue)

/-- Number of atoms of a group carrying a given residue name. -/
def resCount (atoms : List Atom) (name : String) : Nat :=
  (atoms.filter (fun a => a.residue = name)).length

/-- Claim-side reading of the `commonResidues` tie-break: frequency pairs in
order of first appearance in the group (which is exactly the insertion order
of the frequency list), stably sorted by descending count, top five names. -/
def specCommonResidues (atoms : List Atom) : List String :=
  ((List.insertionSort byCountDesc (residueFrequency atoms)).take 5).map Prod.fst

/-- Concrete atom with the fields the claims inspect. -/
def mkAtom (chain residue : String) (ri : Option Int) : Atom :=
  { x := 0, y := 0, z := 0, element := "C", name := "CA", residue := residue,
    chain := chain, residue_index := ri, color := { r := 0, g := 0, b := 0 } }

/-- All-zero bounding box for concrete documents. -/
def zeroBounds : SimulationBounds :=
  { min := { x := 0, y := 0, z := 0 }, max := { x := 0, y := 0, z := 0 },
    center := { x := 0, y := 0, z := 0 } }

/-- A well-formed one-frame document. -/
def sampleTrajectory : TrajectoryData :=
  { metadata :=
      { source := "sample", title := none, num_frames := 1, num_atoms := 1,
        bounds := zeroBounds }
    frames := [[mkAtom "A" "ALA" none]] }

/-- A document violating the frame-size invariant: `num_atoms` is 2 while
its single frame holds 1 particle. -/
def inconsistentTrajectory : TrajectoryData :=
  { metadata :=
      { source := "bad", title := none, num_frames := 1, num_atoms := 2,
        bounds := zeroBounds }
    frames := [[mkAtom "A" "ALA" none]] }

/-- A three-atom frame over chains A, B. -/
def exFrame : List Atom :=
  [mkAtom "A" "ALA" (some 3), mkAtom "B" "HOH" none, mkAtom "A" "GLY" (some 7)]

/-- A chain group with residue indices present on some atoms only. -/
def exResidueGroup : List Atom :=
  [mkAtom "A" "ALA" (some 5), mkAtom "A" "GLY" none, mkAtom "A" "ALA" (some 2)]

/-- A chain group with six distinct residue names, one of them rarer. -/
def exChain : List Atom :=
  [mkAtom "A" "ALA" none, mkAtom "A" "ALA" none,
   mkAtom "A" "GLY" none, mkAtom "A" "GLY" none,
   mkAtom "A" "VAL" none, mkAtom "A" "VAL" none,
   mkAtom "A" "LEU" none, mkAtom "A" "LEU" none,
   mkAtom "A" "SER" none, mkAtom "A" "SER" none,
   mkAtom "A" "TRP" none]

/-- A group with two equally frequent residue names, the second of which is
an array-index-like string. -/
def tieFrame : List Atom := [mkAtom "A" "B" none, mkAtom "A" "1" none]

/-! ### Theorems -/

theorem objEntries_perm {α : Type} (o : JSObj α) : (objEntries o).Perm o := by
  refine List.Perm.trans (List.Perm.append_right _ ?_) (List.filter_append_perm _ o)
  exact List.perm_insertionSort _ _

theorem jsGet_jsSet {α : Type} (o : JSObj α) (k k2 : String) (v : α) :
    jsGet (jsSet o k v) k2 = if k = k2 then some v else jsGet o k2 := by
  induction o with
  | nil =>
      by_cases h : k = k2 <;> simp [jsGet, jsSet, h]
  | cons p rest ih =>
      obtain ⟨k', v'⟩ := p
      by_cases h1 : k' = k
      · subst h1
        by_cases h2 : k' = k2 <;> simp [jsGet, jsSet, h2]
      · by_cases h2 : k' = k2
        · subst h2
          have : ¬ k = k' := fun h => h1 h.symm
          simp [jsGet, jsSet, h1, this]
        · simp [jsGet, jsSet, h1, h2, ih]

theorem jsKeys_jsSet {α : Type} (o : JSObj α) (k : String) (v : α) :
    jsKeys (jsSet o k v) = if k ∈ jsKeys o then jsKeys o else jsKeys o ++ [k] := by
  induction o with
  | nil => simp [jsKeys, jsSet]
  | cons p rest ih =>
      obtain ⟨k', v'⟩ := p
      by_cases h1 : k' = k
      · subst h1
        simp [jsKeys, jsSet]
      · have hmem : (k ∈ jsKeys ((k', v') :: rest)) ↔ (k ∈ jsKeys rest) := by
          simp only [jsKeys, List.map_cons, List.mem_cons]
          constructor
          · rintro (h2 | h2)
            · exact absurd h2.symm h1
            · exact h2
          · exact Or.inr
        have hset : jsSet ((k', v') :: rest) k v = (k', v') :: jsSet rest k v := by
          simp [jsSet, h1]
        by_cases h3 : k ∈ jsKeys rest
        · rw [hset, if_pos (hmem.mpr h3)]
          simp only [jsKeys, List.map_cons]
          rw [show List.map Prod.fst (jsSet rest k v) = jsKeys (jsSet rest k v) from rfl,
            ih, if_pos h3]
          rfl
        · rw [hset, if_neg (fun h => h3 (hmem.mp h))]
          simp only [jsKeys, List.map_cons]
          rw [show List.map Prod.fst (jsSet rest k v) = jsKeys (jsSet rest k v) from rfl,
            ih, if_neg h3]
          rfl

theorem mem_jsKeys_jsSet {α : Type} (o : JSObj α) (k k2 : String) (v : α) :
    k2 ∈ jsKeys (jsSet o k v) ↔ k2 ∈ jsKeys o ∨ k2 = k := by
  rw [jsKeys_jsSet]
  by_cases h : k ∈ jsKeys o
  · simp only [h, if_true]
    constructor
    · exact fun hm => Or.inl hm
    · rintro (hm | rfl)
      · exact hm
      · exact h
  · simp [h]

theorem jsKeys_jsSet_nodup {α : Type} (o : JSObj α) (k : String) (v : α)
    (h : (jsKeys o).Nodup) : (jsKeys (jsSet o k v)).Nodup := by
  rw [jsKeys_jsSet]
  by_cases hm : k ∈ jsKeys o
  · simpa [hm] using h
  · simp only [hm, if_false]
    simpa [List.nodup_append] using ⟨h, hm⟩

theorem jsGet_mem {α : Type} (o : JSObj α) (k : String) (v : α)
    (h : jsGet o k = some v) : (k, v) ∈ o := by
  induction o with
  | nil => simp [jsGet] at h
  | cons p rest ih =>
      obtain ⟨k', v'⟩ := p
      by_cases h1 : k' = k
      · subst h1
        simp [jsGet] at h
        simp [h]
      · simp [jsGet, h1] at h
        exact List.mem_cons_of_mem _ (ih h)

theorem jsGet_isSome_of_mem_keys {α : Type} (o : JSObj α) (k : String)
    (h : k ∈ jsKeys o) : ∃ v, jsGet o k = some v := by
  induction o with
  | nil => simp [jsKeys] at h
  | cons p rest ih =>
      obtain ⟨k', v'⟩ := p
      by_cases h1 : k' = k
      · exact ⟨v', by simp [jsGet, h1]⟩
      · have : k ∈ jsKeys rest := by
          rcases (by simpa [jsKeys] using h : k = k' ∨ k ∈ jsKeys rest) with h2 | h2
          · exact absurd h2.symm h1
          · exact h2
        obtain ⟨v, hv⟩ := ih this
        exact ⟨v, by simp [jsGet, h1, hv]⟩

theorem mem_keys_of_jsGet_some {α : Type} (o : JSObj α) (k : String) (v : α)
    (h : jsGet o k = some v) : k ∈ jsKeys o := by
  have := jsGet_mem o k v h
  exact List.mem_map_of_mem Prod.fst this

theorem jsGet_of_mem {α : Type} (o : JSObj α) (k : String) (v : α)
    (hnd : (jsKeys o).Nodup) (h : (k, v) ∈ o) : jsGet o k = some v := by
  induction o with
  | nil => simp at h
  | cons p rest ih =>
      obtain ⟨k', v'⟩ := p
      have hnd0 : (k' :: jsKeys rest).Nodup := by simpa [jsKeys] using hnd
      have hnd1 := List.nodup_cons.mp hnd0
      rcases List.mem_cons.mp h with h1 | h1
      · injection h1 with hk hv
        subst hk
        subst hv
        simp [jsGet]
      · have hk : k' ≠ k := by
          intro hkk
          subst hkk
          exact hnd1.1 (List.mem_map_of_mem Prod.fst h1)
        simp only [jsGet, if_neg hk]
        exact ih hnd1.2 h1

theorem jsSet_fresh_append {α : Type} (o : JSObj α) (k : String) (v : α)
    (h : k ∉ jsKeys o) : jsSet o k v = o ++ [(k, v)] := by
  induction o with
  | nil => simp [jsSet]
  | cons p rest ih =>
      obtain ⟨k', v'⟩ := p
      have h1 : k' ≠ k := by
        intro hkk
        exact h (by simp [jsKeys, hkk])
      have h2 : k ∉ jsKeys rest := fun hm => h (by simp [jsKeys] at hm ⊢; exact Or.inr hm)
      simp [jsSet, h1, ih h2]

theorem jsGet_foldl_upsert {β : Type} (kf : Atom → String) (init : β)
    (upd : β → Atom → β) :
    ∀ (atoms : List Atom) (o : JSObj β) (k : String),
      jsGet (atoms.foldl
          (fun acc a => jsSet acc (kf a) (upd ((jsGet acc (kf a)).getD init) a)) o) k =
        (if (atoms.filter (fun a => kf a = k)).isEmpty then jsGet o k
         else some ((atoms.filter (fun a => kf a = k)).foldl upd ((jsGet o k).getD init)))
  | [], o, k => by simp
  | a :: rest, o, k => by
      rw [List.foldl_cons, jsGet_foldl_upsert kf init upd rest]
      by_cases hk : kf a = k
      · subst hk
        have hcons : (a :: rest).filter (fun b => kf b = kf a) =
            a :: rest.filter (fun b => kf b = kf a) :=
          List.filter_cons_of_pos (by simp)
        rw [jsGet_jsSet, if_pos rfl, hcons]
        by_cases hrest : (rest.filter (fun b => kf b = kf a)).isEmpty
        · have hnil : rest.filter (fun b => kf b = kf a) = [] := by
            simpa using hrest
          simp [hnil]
        · simp [hrest]
      · have hcons : (a :: rest).filter (fun b => kf b = k) =
            rest.filter (fun b => kf b = k) :=
          List.filter_cons_of_neg (by simp [hk])
        rw [jsGet_jsSet, if_neg hk, hcons]

theorem jsGet_jsUpsertFold {β : Type} (kf : Atom → String) (init : β)
    (upd : β → Atom → β) (atoms : List Atom) (k : String) :
    jsGet (jsUpsertFold kf init upd atoms) k =
      (if (atoms.filter (fun a => kf a = k)).isEmpty then none
       else some ((atoms.filter (fun a => kf a = k)).foldl upd init)) := by
  rw [jsUpsertFold, jsGet_foldl_upsert]
  simp [jsGet]

theorem mem_jsKeys_foldl_upsert {β : Type} (kf : Atom → String) (init : β)
    (upd : β → Atom → β) :
    ∀ (atoms : List Atom) (o : JSObj β) (k : String),
      k ∈ jsKeys (atoms.foldl
          (fun acc a => jsSet acc (kf a) (upd ((jsGet acc (kf a)).getD init) a)) o) ↔
        k ∈ jsKeys o ∨ k ∈ atoms.map kf
  | [], o, k => by simp
  | a :: rest, o, k => by
      rw [List.foldl_cons, mem_jsKeys_foldl_upsert kf init upd rest]
      rw [mem_jsKeys_jsSet]
      simp only [List.map_cons, List.mem_cons]
      constructor
      · rintro ((h | h) | h)
        · exact Or.inl h
        · exact Or.inr (Or.inl h)
        · exact Or.inr (Or.inr h)
      · rintro (h | h | h)
        · exact Or.inl (Or.inl h)
        · exact Or.inl (Or.inr h)
        · exact Or.inr h

theorem mem_jsKeys_jsUpsertFold {β : Type} (kf : Atom → String) (init : β)
    (upd : β → Atom → β) (atoms : List Atom) (k : String) :
    k ∈ jsKeys (jsUpsertFold kf init upd atoms) ↔ k ∈ atoms.map kf := by
  rw [jsUpsertFold, mem_jsKeys_foldl_upsert]
  simp [jsKeys]

theorem jsKeys_foldl_upsert_nodup {β : Type} (kf : Atom → String) (init : β)
    (upd : β → Atom → β) :
    ∀ (atoms : List Atom) (o : JSObj β), (jsKeys o).Nodup →
      (jsKeys (atoms.foldl
        (fun acc a => jsSet acc (kf a) (upd ((jsGet acc (kf a)).getD init) a)) o)).Nodup
  | [], o, h => h
  | a :: rest, o, h => by
      rw [List.foldl_cons]
      exact jsKeys_foldl_upsert_nodup kf init upd rest _ (jsKeys_jsSet_nodup _ _ _ h)

theorem jsKeys_jsUpsertFold_nodup {β : Type} (kf : Atom → String) (init : β)
    (upd : β → Atom → β) (atoms : List Atom) :
    (jsKeys (jsUpsertFold kf init upd atoms)).Nodup :=
  jsKeys_foldl_upsert_nodup kf init upd atoms [] List.nodup_nil

@[simp]
theorem calculateChainInfo_atomCount (atoms : List Atom) (chainId : String) :
    (calculateChainInfo atoms chainId).atomCount = atoms.length := rfl

@[simp]
theorem calculateChainInfo_commonResidues (atoms : List Atom) (chainId : String) :
    (calculateChainInfo atoms chainId).commonResidues = commonResiduesOf atoms := rfl

theorem foldl_push_eq_append (l : List Atom) :
    ∀ g : List Atom, l.foldl (fun g a => g ++ [a]) g = g ++ l := by
  induction l with
  | nil => intro g; simp
  | cons a rest ih => intro g; simp [ih]

theorem jsGet_chainGroups (atoms : List Atom) (k : String) :
    jsGet (chainGroups atoms) k =
      (if (atoms.filter (fun a => a.chain = k)).isEmpty then none
       else some (atoms.filter (fun a => a.chain = k))) := by
  rw [chainGroups, jsGet_jsUpsertFold]
  by_cases h : (atoms.filter (fun a => a.chain = k)).isEmpty
  · simp [h]
  · simp only [h, if_false]
    rw [foldl_push_eq_append]
    simp

theorem jsGet_chainGroups_of_mem (atoms : List Atom) (k : String)
    (h : k ∈ atoms.map (fun a => a.chain)) :
    jsGet (chainGroups atoms) k = some (atoms.filter (fun a => a.chain = k)) := by
  rw [jsGet_chainGroups]
  obtain ⟨a, ha, hk⟩ := List.mem_map.mp h
  have hmem : a ∈ atoms.filter (fun b => b.chain = k) :=
    List.mem_filter.mpr ⟨ha, by simp [hk]⟩
  have hne : ¬ (atoms.filter (fun a => a.chain = k)).isEmpty := by
    intro hempty
    rw [List.isEmpty_iff] at hempty
    rw [hempty] at hmem
    simp at hmem
  simp [hne]

theorem chainGroups_keys_nodup (atoms : List Atom) :
    (jsKeys (chainGroups atoms)).Nodup :=
  jsKeys_jsUpsertFold_nodup _ _ _ atoms

/-- Entries of the group object are exactly the nonempty chain filters. -/
theorem mem_chainGroups_iff (atoms : List Atom) (k : String) (g : List Atom) :
    (k, g) ∈ chainGroups atoms ↔
      g = atoms.filter (fun a => a.chain = k) ∧ ¬ g.isEmpty := by
  constructor
  · intro h
    have hget := jsGet_of_mem _ _ _ (chainGroups_keys_nodup atoms) h
    rw [jsGet_chainGroups] at hget
    by_cases he : (atoms.filter (fun a => a.chain = k)).isEmpty
    · rw [if_pos he] at hget
      exact absurd hget (by simp)
    · rw [if_neg he] at hget
      have hg := Option.some.inj hget
      refine ⟨hg.symm, ?_⟩
      rw [← hg]
      exact he
  · rintro ⟨rfl, hne⟩
    have hk : k ∈ atoms.map (fun a => a.chain) := by
      rcases hfilter : atoms.filter (fun a => a.chain = k) with _ | ⟨a, rest⟩
      · rw [hfilter] at hne
        simp at hne
      · have : a ∈ atoms.filter (fun b => b.chain = k) := by rw [hfilter]; simp
        have hmem := List.mem_filter.mp this
        exact List.mem_map.mpr ⟨a, hmem.1, by simpa using hmem.2⟩
    exact jsGet_mem _ _ _ (jsGet_chainGroups_of_mem atoms k hk)

theorem foldl_jsSet_fresh {β γ : Type} (f : String × γ → β) :
    ∀ (ps : List (String × γ)) (m : JSObj β),
      (ps.map Prod.fst).Nodup → (∀ p ∈ ps, p.1 ∉ jsKeys m) →
      ps.foldl (fun acc p => jsSet acc p.1 (f p)) m = m ++ ps.map (fun p => (p.1, f p))
  | [], m, _, _ => by simp
  | p :: rest, m, hnd, hdisj => by
      rw [List.foldl_cons]
      have hp : p.1 ∉ jsKeys m := hdisj p (List.mem_cons_self p rest)
      rw [jsSet_fresh_append m p.1 (f p) hp]
      have hnd2 : (rest.map Prod.fst).Nodup := (List.nodup_cons.mp hnd).2
      have hkeys : jsKeys (m ++ [(p.1, f p)]) = jsKeys m ++ [p.1] := by simp [jsKeys]
      have hdisj2 : ∀ q ∈ rest, q.1 ∉ jsKeys (m ++ [(p.1, f p)]) := by
        intro q hq hmem
        rw [hkeys] at hmem
        rcases List.mem_append.mp hmem with h | h
        · exact hdisj q (List.mem_cons_of_mem p hq) h
        · have hq1 : q.1 = p.1 := by simpa using h
          exact (List.nodup_cons.mp hnd).1 (hq1 ▸ List.mem_map_of_mem Prod.fst hq)
      rw [foldl_jsSet_fresh f rest (m ++ [(p.1, f p)]) hnd2 hdisj2]
      simp

/-- The metadata object lists, in `Object.entries` order of the groups, one
`calculateChainInfo` result per chain group. -/
theorem chainMetadataMap_eq_map (atoms : List Atom) :
    chainMetadataMap atoms =
      (objEntries (chainGroups atoms)).map
        (fun p => (p.1, calculateChainInfo p.2 p.1)) := by
  rw [chainMetadataMap]
  have hperm : ((objEntries (chainGroups atoms)).map Prod.fst).Perm
      (jsKeys (chainGroups atoms)) :=
    (objEntries_perm (chainGroups atoms)).map Prod.fst
  have hnd : ((objEntries (chainGroups atoms)).map Prod.fst).Nodup :=
    hperm.nodup_iff.mpr (chainGroups_keys_nodup atoms)
  have := foldl_jsSet_fresh (fun p => calculateChainInfo p.2 p.1)
    (objEntries (chainGroups atoms)) [] hnd (by simp [jsKeys])
  simpa using this

theorem chainMetadataMap_keys_nodup (atoms : List Atom) :
    (jsKeys (chainMetadataMap atoms)).Nodup := by
  rw [chainMetadataMap_eq_map]
  have hperm : ((objEntries (chainGroups atoms)).map Prod.fst).Perm
      (jsKeys (chainGroups atoms)) :=
    (objEntries_perm (chainGroups atoms)).map Prod.fst
  have hnd : ((objEntries (chainGroups atoms)).map Prod.fst).Nodup :=
    hperm.nodup_iff.mpr (chainGroups_keys_nodup atoms)
  simpa [jsKeys, Function.comp, List.map_map] using hnd

/-! ### Claim theorems -/

/-- C1: for every particle count, `runComputePass` issues exactly one
dispatch call, whose thread-group count is the ceiling of the count divided
by the workgroup size 64 (characterised by the two inequalities); in
particular, particle counts 1, 63, 64, 65 and 10000 give 1, 1, 1, 2 and 157
thread-groups respectively. -/
theorem runComputePass_dispatches_ceil (atomCount : Nat) :
    dispatchCounts (runComputePass atomCount) = [jsCeilDiv atomCount workgroupSize] ∧
    atomCount ≤ workgroupSize * jsCeilDiv atomCount workgroupSize ∧
    workgroupSize * jsCeilDiv atomCount workgroupSize < atomCount + workgroupSize ∧
    dispatchCounts (runComputePass 1) = [1] ∧
    dispatchCounts (runComputePass 63) = [1] ∧
    dispatchCounts (runComputePass 64) = [1] ∧
    dispatchCounts (runComputePass 65) = [2] ∧
    dispatchCounts (runComputePass 10000) = [157] := by
  refine ⟨rfl, ?_, ?_, by decide, by decide, by decide, by decide, by decide⟩
  · simp only [jsCeilDiv, workgroupSize]
    omega
  · simp only [jsCeilDiv, workgroupSize]
    omega

theorem rendererStep_no_readback (es : List RendererEvent) :
    ∀ s : RendererState, s.meshAttached = false → s.pendingReadbacks = 0 →
      (es.foldl rendererStep s).meshAttached = false ∧
      (es.foldl rendererStep s).pendingReadbacks = 0 := by
  induction es with
  | nil => intro s h1 h2; exact ⟨h1, h2⟩
  | cons e rest ih =>
      intro s h1 h2
      rw [List.foldl_cons]
      refine ih (rendererStep s e) ?_ ?_ <;> cases e <;>
        simp [rendererStep, frameTick, h1, h2] <;>
        by_cases hr : s.ready = true <;> simp [hr, h1, h2]

theorem frameTick_dispatches (s : RendererState) (h : s.ready = true) :
    (frameTick s).dispatchesIssued = s.dispatchesIssued + 1 := by
  rw [frameTick, if_pos h]
  by_cases hm : s.meshAttached && s.outputBufferSet
  · rw [if_pos hm]
  · rw [if_neg hm]

/-- C2: at every reachable point of the renderer's lifecycle there is at
most one outstanding readback — in fact there are always exactly zero.
`updateMesh` returns at the guard `if (!meshRef.current ||
!outputBufferRef.current) return;` before any staging buffer or `mapAsync`
is created, and the mesh ref is never attached by the component's JSX, so
no readback ever starts; consequently the claimed bound holds at every
reachable state.  Its skip clause is vacuous there: a dispatch is issued on
every ready frame (last conjunct), which never conflicts with the bound
because no readback is ever pending when a frame starts. -/
theorem readback_at_most_one (es : List RendererEvent) :
    (es.foldl rendererStep rendererInit).pendingReadbacks = 0 ∧
    (es.foldl rendererStep rendererInit).pendingReadbacks ≤ 1 ∧
    ((es.foldl rendererStep rendererInit).ready = true →
      (rendererStep (es.foldl rendererStep rendererInit)
          RendererEvent.frame).dispatchesIssued =
        (es.foldl rendererStep rendererInit).dispatchesIssued + 1) := by
  obtain ⟨hmesh, hpending⟩ := rendererStep_no_readback es rendererInit rfl rfl
  exact ⟨hpending, by rw [hpending]; omega,
    fun h => frameTick_dispatches (es.foldl rendererStep rendererInit) h⟩

/-- Witness for C2 at a concrete lifecycle (context ready, buffers created,
two frames): zero readbacks are pending and the next ready frame issues one
more dispatch. -/
theorem readback_at_most_one_witness :
    ([RendererEvent.contextReady, RendererEvent.buffersCreated,
      RendererEvent.frame, RendererEvent.frame].foldl rendererStep
        rendererInit).pendingReadbacks = 0 ∧
    (rendererStep
        ([RendererEvent.contextReady, RendererEvent.buffersCreated,
          RendererEvent.frame, RendererEvent.frame].foldl rendererStep
            rendererInit) RendererEvent.frame).dispatchesIssued =
      ([RendererEvent.contextReady, RendererEvent.buffersCreated,
        RendererEvent.frame, RendererEvent.frame].foldl rendererStep
          rendererInit).dispatchesIssued + 1 := by
  have h := readback_at_most_one
    [RendererEvent.contextReady, RendererEvent.buffersCreated,
     RendererEvent.frame, RendererEvent.frame]
  exact ⟨h.1, h.2.2 (by decide)⟩

/-- C6 counterexample: a trajectory document whose single frame holds 1
particle while `metadata.num_atoms` is 2 is accepted by the load path — the
Trajectory Store is swapped to it wholesale, the frame index is reset and
playback starts — instead of the load failing. -/
theorem inconsistent_document_accepted :
    inconsistentTrajectory.frames.map List.length = [1] ∧
    inconsistentTrajectory.metadata.num_atoms = 2 ∧
    handleDataLoaded
        { trajectory := sampleTrajectory, currentFrame := 3, isPlaying := false }
        inconsistentTrajectory =
      { trajectory := inconsistentTrajectory, currentFrame := 0, isPlaying := true } :=
  ⟨rfl, rfl, rfl⟩

/-- C6 (amended): the load path performs no consistency validation — any
document handed to the loader callback replaces the store wholesale (third
conjunct) — but the only parser, `parsePDB`, is consistent by construction:
it always produces exactly one frame whose particle count equals
`metadata.num_atoms`. -/
theorem parsePDB_consistent (content fileName : String) :
    (parsePDB content fileName).metadata.num_frames = 1 ∧
    (parsePDB content fileName).frames.map List.length =
      [(parsePDB content fileName).metadata.num_atoms] ∧
    (∀ (s : PlaygroundState) (d : TrajectoryData), (handleDataLoaded s d).trajectory = d) := by
  refine ⟨rfl, ?_, fun s d => rfl⟩
  simp [parsePDB]

/-- C7 counterexample: selecting chain "A" and then loading a new trajectory
leaves the selection at "A" — the Selection State is not reset to none by a
trajectory load. -/
theorem selection_survives_reload :
    List.foldl viewStep initialSelectedChain
      [ViewEvent.select "A", ViewEvent.loadTrajectory sampleTrajectory] = some "A" := rfl

/-- C7 (amended): the hovered/selected chain id starts as null on mount and
is mutated only by the select/deselect handlers; a trajectory load leaves it
unchanged, so a selection made before a load persists after it. -/
theorem viewStep_spec :
    initialSelectedChain = none ∧
    (∀ (s : Option String) (t : TrajectoryData),
        viewStep s (ViewEvent.loadTrajectory t) = s) ∧
    (∀ (s : Option String) (c : String), viewStep s (ViewEvent.select c) = some c) ∧
    (∀ s : Option String, viewStep s ViewEvent.deselect = none) :=
  ⟨rfl, fun _ _ => rfl, fun _ _ => rfl, fun _ => rfl⟩

theorem iterAdvance_eq_mod (totalFrames : Nat) (h : 0 < totalFrames) :
    ∀ (k prev : Nat), prev < totalFrames →
      iterAdvance totalFrames k prev = (prev + k) % totalFrames := by
  intro k
  induction k with
  | zero => intro prev hp; simpa [iterAdvance] using (Nat.mod_eq_of_lt hp).symm
  | succ k ih =>
      intro prev hp
      rw [show iterAdvance totalFrames (k + 1) prev =
            iterAdvance totalFrames k (advanceFrame prev totalFrames) from rfl,
        ih (advanceFrame prev totalFrames)
          (by rw [advanceFrame]; exact Nat.mod_lt _ h),
        advanceFrame, Nat.mod_add_mod,
        show prev + 1 + k = prev + (k + 1) from by omega]

/-- C8: while playing, one timer tick advances the frame index by exactly 1
modulo the frame count — the successor for indices before the last frame, 0
at the last frame — the result stays in range, and iterating the advance a
full cycle returns to the start, so playback loops indefinitely. -/
theorem advanceFrame_mod (totalFrames prev : Nat) (h1 : 0 < totalFrames)
    (h2 : prev < totalFrames) :
    advanceFrame prev totalFrames = (prev + 1) % totalFrames ∧
    (prev + 1 < totalFrames → advanceFrame prev totalFrames = prev + 1) ∧
    (prev + 1 = totalFrames → advanceFrame prev totalFrames = 0) ∧
    advanceFrame prev totalFrames < totalFrames ∧
    iterAdvance totalFrames totalFrames prev = prev := by
  refine ⟨rfl, ?_, ?_, Nat.mod_lt _ h1, ?_⟩
  · intro h; exact Nat.mod_eq_of_lt h
  · intro h; rw [advanceFrame, h, Nat.mod_self]
  · rw [iterAdvance_eq_mod totalFrames h1 totalFrames prev h2, Nat.add_mod_right,
      Nat.mod_eq_of_lt h2]

/-- Witness for C8 at the instance named by the spec: with 5 frames and
current index 4, one advance yields index 0. -/
theorem advanceFrame_mod_witness :
    advanceFrame 4 5 = 0 ∧ advanceFrame 4 5 < 5 := by
  have h := advanceFrame_mod 5 4 (by decide) (by decide)
  exact ⟨h.2.2.1 (by decide), h.2.2.2.1⟩

/-- C9: a kernel invocation whose global thread index is at least the length
of the input array returns without touching any buffer (output unchanged, no
accesses), and every access any invocation performs is within the bounds of
the input length. -/
theorem kernelMain_out_of_range_noop (atomsIn atomsOut : List Vec4F) (i : Nat) :
    (atomsIn.length ≤ i → kernelMain atomsIn atomsOut i = (atomsOut, [])) ∧
    (∀ acc ∈ (kernelMain atomsIn atomsOut i).2, acc.index < atomsIn.length) := by
  constructor
  · intro h
    simp only [kernelMain, dif_pos h]
  · intro acc hacc
    by_cases h : atomsIn.length ≤ i
    · simp only [kernelMain, dif_pos h] at hacc
      simp at hacc
    · simp only [kernelMain, dif_neg h] at hacc
      have hi : i < atomsIn.length := Nat.lt_of_not_le h
      rcases (by simpa using hacc : acc = BufferAccess.readIn i ∨
          acc = BufferAccess.writeOut i) with rfl | rfl <;>
        simpa [BufferAccess.index] using hi

/-- Witness for C9 at a concrete out-of-range invocation (1 particle, thread
index 3) and a concrete in-range access. -/
theorem kernelMain_out_of_range_noop_witness :
    kernelMain [((0 : Rat), (0 : Rat), (0 : Rat), (0 : Rat))]
        [((0 : Rat), (0 : Rat), (0 : Rat), (0 : Rat))] 3 =
      ([((0 : Rat), (0 : Rat), (0 : Rat), (0 : Rat))], []) ∧
    (BufferAccess.readIn 0).index < 1 := by
  constructor
  · exact (kernelMain_out_of_range_noop _ _ 3).1 (by decide)
  · have h := (kernelMain_out_of_range_noop
      [((0 : Rat), (0 : Rat), (0 : Rat), (0 : Rat))]
      [((0 : Rat), (0 : Rat), (0 : Rat), (0 : Rat))] 0).2
    exact h (BufferAccess.readIn 0) (by simp [kernelMain])

theorem foldl_minResidueStep_some (atoms : List Atom) :
    ∀ x : Int, atoms.foldl minResidueStep (some x) =
      some ((atoms.filterMap (fun a => a.residue_index)).foldl min x) := by
  induction atoms with
  | nil => intro x; simp
  | cons a rest ih =>
      intro x
      cases h : a.residue_index with
      | none => simp [minResidueStep, h, ih, List.filterMap_cons]
      | some r => simp [minResidueStep, h, ih, List.filterMap_cons]

theorem minResidueFold_eq (atoms : List Atom) :
    minResidueFold atoms =
      match atoms.filterMap (fun a => a.residue_index) with
      | [] => none
      | r :: rs => some (rs.foldl min r) := by
  induction atoms with
  | nil => rfl
  | cons a rest ih =>
      cases h : a.residue_index with
      | none =>
          simpa [minResidueFold, minResidueStep, h, List.filterMap_cons] using ih
      | some r =>
          simp [minResidueFold, minResidueStep, h, List.filterMap_cons,
            foldl_minResidueStep_some]

theorem foldl_maxResidueStep_some (atoms : List Atom) :
    ∀ x : Int, atoms.foldl maxResidueStep (some x) =
      some ((atoms.filterMap (fun a => a.residue_index)).foldl max x) := by
  induction atoms with
  | nil => intro x; simp
  | cons a rest ih =>
      intro x
      cases h : a.residue_index with
      | none => simp [maxResidueStep, h, ih, List.filterMap_cons]
      | some r => simp [maxResidueStep, h, ih, List.filterMap_cons]

theorem maxResidueFold_eq (atoms : List Atom) :
    maxResidueFold atoms =
      match atoms.filterMap (fun a => a.residue_index) with
      | [] => none
      | r :: rs => some (rs.foldl max r) := by
  induction atoms with
  | nil => rfl
  | cons a rest ih =>
      cases h : a.residue_index with
      | none =>
          simpa [maxResidueFold, maxResidueStep, h, List.filterMap_cons] using ih
      | some r =>
          simp [maxResidueFold, maxResidueStep, h, List.filterMap_cons,
            foldl_maxResidueStep_some]

theorem foldl_min_le_init (l : List Int) : ∀ x : Int, l.foldl min x ≤ x := by
  induction l with
  | nil => intro x; simp
  | cons a rest ih =>
      intro x
      exact le_trans (ih (min x a)) (min_le_left x a)

theorem foldl_min_le_mem (l : List Int) :
    ∀ (x y : Int), y ∈ l → l.foldl min x ≤ y := by
  induction l with
  | nil => intro x y h; simp at h
  | cons a rest ih =>
      intro x y h
      rcases List.mem_cons.mp h with rfl | h
      · exact le_trans (foldl_min_le_init rest (min x y)) (min_le_right x y)
      · exact ih (min x a) y h

theorem foldl_min_mem (l : List Int) :
    ∀ x : Int, l.foldl min x = x ∨ l.foldl min x ∈ l := by
  induction l with
  | nil => intro x; exact Or.inl rfl
  | cons a rest ih =>
      intro x
      rcases ih (min x a) with h | h
      · rw [List.foldl_cons, h]
        rcases min_choice x a with h2 | h2
        · exact Or.inl h2
        · exact Or.inr (by rw [h2]; exact List.mem_cons_self a rest)
      · exact Or.inr (List.mem_cons_of_mem a h)

theorem foldl_max_le_init (l : List Int) : ∀ x : Int, x ≤ l.foldl max x := by
  induction l with
  | nil => intro x; simp
  | cons a rest ih =>
      intro x
      exact le_trans (le_max_left x a) (ih (max x a))

theorem foldl_max_le_mem (l : List Int) :
    ∀ (x y : Int), y ∈ l → y ≤ l.foldl max x := by
  induction l with
  | nil => intro x y h; simp at h
  | cons a rest ih =>
      intro x y h
      rcases List.mem_cons.mp h with rfl | h
      · exact le_trans (le_max_right x y) (foldl_max_le_init rest (max x y))
      · exact ih (max x a) y h

theorem foldl_max_mem (l : List Int) :
    ∀ x : Int, l.foldl max x = x ∨ l.foldl max x ∈ l := by
  induction l with
  | nil => intro x; exact Or.inl rfl
  | cons a rest ih =>
      intro x
      rcases ih (max x a) with h | h
      · rw [List.foldl_cons, h]
        rcases max_choice x a with h2 | h2
        · exact Or.inl h2
        · exact Or.inr (by rw [h2]; exact List.mem_cons_self a rest)
      · exact Or.inr (List.mem_cons_of_mem a h)

theorem calculateChainInfo_residueRange_eq (atoms : List Atom) (chainId : String) :
    (calculateChainInfo atoms chainId).residueRange =
      { start := match minResidueFold atoms with | none => 0 | some m => m
        stop := match maxResidueFold atoms with | none => 0 | some m => m } := rfl

/-- C4: `calculateChainInfo` ignores atoms without a residue index when
computing the residue range: if no residue index is present in the group the
range is reported as 0–0, and otherwise the reported start and stop are the
minimum and maximum of the residue-index values that are present. -/
theorem calculateChainInfo_residueRange_spec (atoms : List Atom) (chainId : String) :
    (atoms.filterMap (fun a => a.residue_index) = [] →
      (calculateChainInfo atoms chainId).residueRange = { start := 0, stop := 0 }) ∧
    (∀ r ∈ atoms.filterMap (fun a => a.residue_index),
      (calculateChainInfo atoms chainId).residueRange.start ≤ r ∧
      r ≤ (calculateChainInfo atoms chainId).residueRange.stop) ∧
    (atoms.filterMap (fun a => a.residue_index) ≠ [] →
      (calculateChainInfo atoms chainId).residueRange.start ∈
        atoms.filterMap (fun a => a.residue_index) ∧
      (calculateChainInfo atoms chainId).residueRange.stop ∈
        atoms.filterMap (fun a => a.residue_index)) := by
  rcases hp : atoms.filterMap (fun a => a.residue_index) with _ | ⟨r, rs⟩
  · refine ⟨fun _ => ?_, ?_, fun h => absurd hp h⟩
    · rw [calculateChainInfo_residueRange_eq, minResidueFold_eq, maxResidueFold_eq, hp]
    · intro r hr
      rw [hp] at hr
      simp at hr
  · have hmin : minResidueFold atoms = some (rs.foldl min r) := by
      rw [minResidueFold_eq, hp]
    have hmax : maxResidueFold atoms = some (rs.foldl max r) := by
      rw [maxResidueFold_eq, hp]
    have hstart : (calculateChainInfo atoms chainId).residueRange.start =
        rs.foldl min r := by
      rw [calculateChainInfo_residueRange_eq, hmin]
    have hstop : (calculateChainInfo atoms chainId).residueRange.stop =
        rs.foldl max r := by
      rw [calculateChainInfo_residueRange_eq, hmax]
    refine ⟨fun habs => absurd (hp ▸ habs) (by simp), ?_, fun _ => ⟨?_, ?_⟩⟩
    · intro v hv
      rw [hp] at hv
      rw [hstart, hstop]
      rcases List.mem_cons.mp hv with rfl | hv
      · exact ⟨foldl_min_le_init rs v, foldl_max_le_init rs v⟩
      · exact ⟨foldl_min_le_mem rs r v hv, foldl_max_le_mem rs r v hv⟩
    · rw [hstart, hp]
      rcases foldl_min_mem rs r with h | h
      · rw [h]; exact List.mem_cons_self r rs
      · exact List.mem_cons_of_mem r h
    · rw [hstop, hp]
      rcases foldl_max_mem rs r with h | h
      · rw [h]; exact List.mem_cons_self r rs
      · exact List.mem_cons_of_mem r h

/-- Witness for C4 at a concrete group with indices 5 and 2 present and one
atom without an index, and at a concrete group with no index present. -/
theorem calculateChainInfo_residueRange_spec_witness :
    ((calculateChainInfo exResidueGroup "A").residueRange.start ≤ 5 ∧
      5 ≤ (calculateChainInfo exResidueGroup "A").residueRange.stop) ∧
    (calculateChainInfo exResidueGroup "A").residueRange.start ∈
      exResidueGroup.filterMap (fun a => a.residue_index) ∧
    (calculateChainInfo [mkAtom "B" "HOH" none] "B").residueRange =
      { start := 0, stop := 0 } := by
  refine ⟨(calculateChainInfo_residueRange_spec exResidueGroup "A").2.1 5 (by decide),
    ((calculateChainInfo_residueRange_spec exResidueGroup "A").2.2 (by decide)).1,
    (calculateChainInfo_residueRange_spec [mkAtom "B" "HOH" none] "B").1 (by decide)⟩

/-- C3: every chain id appearing in a frame has an entry in the computed
metadata map, and its `atomCount` equals the exact number of particles of
the frame whose chain field is that chain id. -/
theorem chainMetadataMap_atomCount (frame : List Atom) (c : String)
    (h : c ∈ frame.map (fun a => a.chain)) :
    ∃ info, jsGet (chainMetadataMap frame) c = some info ∧
      info.atomCount = (frame.filter (fun a => a.chain = c)).length := by
  have hjs := jsGet_chainGroups_of_mem frame c h
  have hmemGroups := jsGet_mem _ _ _ hjs
  have hmemEntries : (c, frame.filter (fun a => a.chain = c)) ∈
      objEntries (chainGroups frame) :=
    (objEntries_perm (chainGroups frame)).mem_iff.mpr hmemGroups
  have hmemMd : (c, calculateChainInfo (frame.filter (fun a => a.chain = c)) c) ∈
      chainMetadataMap frame := by
    rw [chainMetadataMap_eq_map]
    exact List.mem_map.mpr ⟨(c, frame.filter (fun a => a.chain = c)), hmemEntries, rfl⟩
  exact ⟨calculateChainInfo (frame.filter (fun a => a.chain = c)) c,
    jsGet_of_mem _ _ _ (chainMetadataMap_keys_nodup frame) hmemMd,
    calculateChainInfo_atomCount _ _⟩

/-- Witness for C3 at a concrete three-atom frame: chain "A" holds exactly
two of the three atoms. -/
theorem chainMetadataMap_atomCount_witness :
    ∃ info, jsGet (chainMetadataMap exFrame) "A" = some info ∧ info.atomCount = 2 := by
  obtain ⟨info, h1, h2⟩ := chainMetadataMap_atomCount exFrame "A" (by decide)
  refine ⟨info, h1, ?_⟩
  rw [h2]
  decide

theorem sumLens_jsSet_push (o : JSObj (List Atom)) (k : String) (a : Atom) :
    ((jsSet o k ((jsGet o k).getD [] ++ [a])).map (fun p => p.2.length)).sum =
      ((o.map (fun p => p.2.length)).sum) + 1 := by
  induction o with
  | nil => simp [jsSet, jsGet]
  | cons p rest ih =>
      obtain ⟨k', v⟩ := p
      by_cases h : k' = k
      · subst h
        simp [jsSet, jsGet]
        omega
      · simp only [jsSet, jsGet, if_neg h, List.map_cons, List.sum_cons]
        rw [ih]
        omega

theorem sumLens_chainGroups (frame : List Atom) :
    ((chainGroups frame).map (fun p => p.2.length)).sum = frame.length := by
  suffices h : ∀ (atoms : List Atom) (o : JSObj (List Atom)),
      ((atoms.foldl
          (fun acc a => jsSet acc a.chain (((jsGet acc a.chain).getD []) ++ [a])) o).map
        (fun p => p.2.length)).sum = (o.map (fun p => p.2.length)).sum + atoms.length by
    simpa [chainGroups, jsUpsertFold] using h frame []
  intro atoms
  induction atoms with
  | nil => intro o; simp
  | cons a rest ih =>
      intro o
      rw [List.foldl_cons, ih, sumLens_jsSet_push]
      simp
      omega

theorem mem_keys_chainGroups (frame : List Atom) (k : String) :
    k ∈ jsKeys (chainGroups frame) ↔ k ∈ frame.map (fun a => a.chain) := by
  rw [chainGroups]
  exact mem_jsKeys_jsUpsertFold _ _ _ frame k

theorem mem_keys_chainMetadataMap (frame : List Atom) (k : String) :
    k ∈ jsKeys (chainMetadataMap frame) ↔ k ∈ jsKeys (chainGroups frame) := by
  rw [chainMetadataMap_eq_map]
  have hkeys : jsKeys ((objEntries (chainGroups frame)).map
      (fun p => (p.1, calculateChainInfo p.2 p.1))) =
      (objEntries (chainGroups frame)).map Prod.fst := by
    simp [jsKeys, List.map_map, Function.comp]
  rw [hkeys]
  exact ((objEntries_perm (chainGroups frame)).map Prod.fst).mem_iff

/-- C10: the chain grouping partitions the frame — the metadata map has one
entry per chain (no duplicate keys), every particle's chain id has an entry,
and the `atomCount` fields over all computed groups sum to the total number
of particles of the frame. -/
theorem chainMetadataMap_partition (frame : List Atom) :
    ((chainMetadataMap frame).map (fun p => p.2.atomCount)).sum = frame.length ∧
    (jsKeys (chainMetadataMap frame)).Nodup ∧
    (∀ a ∈ frame, a.chain ∈ jsKeys (chainMetadataMap frame)) := by
  refine ⟨?_, chainMetadataMap_keys_nodup frame, ?_⟩
  · rw [chainMetadataMap_eq_map]
    have hmap : ((objEntries (chainGroups frame)).map
        (fun p => (p.1, calculateChainInfo p.2 p.1))).map (fun p => p.2.atomCount) =
        (objEntries (chainGroups frame)).map (fun p => p.2.length) := by
      simp [List.map_map, Function.comp]
    rw [hmap]
    have hperm := (objEntries_perm (chainGroups frame)).map (fun p => p.2.length)
    rw [hperm.sum_eq]
    exact sumLens_chainGroups frame
  · intro a ha
    rw [mem_keys_chainMetadataMap, mem_keys_chainGroups]
    exact List.mem_map_of_mem (fun a => a.chain) ha

/-- Witness for C10 at a concrete three-atom frame over chains A and B. -/
theorem chainMetadataMap_partition_witness :
    ((chainMetadataMap exFrame).map (fun p => p.2.atomCount)).sum = 3 ∧
    (mkAtom "B" "HOH" none).chain ∈ jsKeys (chainMetadataMap exFrame) := by
  have h := chainMetadataMap_partition exFrame
  exact ⟨h.1.trans (by decide), h.2.2 (mkAtom "B" "HOH" none) (by decide)⟩

theorem foldl_succ_eq_length {γ : Type} (l : List γ) :
    ∀ n : Nat, l.foldl (fun n _ => n + 1) n = n + l.length := by
  induction l with
  | nil => intro n; simp
  | cons a rest ih =>
      intro n
      rw [List.foldl_cons, ih]
      simp only [List.length_cons]
      omega

theorem jsGet_residueFrequency (atoms : List Atom) (k : String) :
    jsGet (residueFrequency atoms) k =
      (if (atoms.filter (fun a => a.residue = k)).isEmpty then none
       else some (atoms.filter (fun a => a.residue = k)).length) := by
  rw [residueFrequency, jsGet_jsUpsertFold]
  by_cases h : (atoms.filter (fun a => a.residue = k)).isEmpty
  · simp [h]
  · simp only [h, if_false]
    rw [foldl_succ_eq_length]
    simp

theorem residueFrequency_keys_nodup (atoms : List Atom) :
    (jsKeys (residueFrequency atoms)).Nodup := by
  rw [residueFrequency]
  exact jsKeys_jsUpsertFold_nodup _ _ _ atoms

theorem mem_keys_residueFrequency (atoms : List Atom) (k : String) :
    k ∈ jsKeys (residueFrequency atoms) ↔ k ∈ residueNames atoms := by
  rw [residueFrequency]
  exact mem_jsKeys_jsUpsertFold _ _ _ atoms k

theorem mem_residueFrequency (atoms : List Atom) (p : String × Nat)
    (h : p ∈ residueFrequency atoms) :
    p.2 = resCount atoms p.1 ∧ p.1 ∈ residueNames atoms := by
  obtain ⟨k, v⟩ := p
  have hget := jsGet_of_mem _ _ _ (residueFrequency_keys_nodup atoms) h
  rw [jsGet_residueFrequency] at hget
  by_cases he : (atoms.filter (fun a => a.residue = k)).isEmpty
  · rw [if_pos he] at hget
    exact absurd hget (by simp)
  · rw [if_neg he] at hget
    have hv := Option.some.inj hget
    refine ⟨hv.symm, ?_⟩
    rcases hfilter : atoms.filter (fun a => a.residue = k) with _ | ⟨a, rest⟩
    · rw [hfilter] at he
      simp at he
    · have hmem : a ∈ atoms.filter (fun b => b.residue = k) := by
        rw [hfilter]; simp
      have h2 := List.mem_filter.mp hmem
      exact List.mem_map.mpr ⟨a, h2.1, by simpa using h2.2⟩

/-- C5 counterexample: on the two-atom group with residue names "B" then
"1" (both of frequency one), the code reports the names as ["1", "B"] —
the array-index-like key "1" is enumerated before "B" by `Object.entries` —
while the spec's tie-break by order of first appearance requires
["B", "1"]. -/
theorem commonResidues_tie_break_mismatch :
    (calculateChainInfo tieFrame "A").commonResidues = ["1", "B"] ∧
    specCommonResidues tieFrame = ["B", "1"] ∧
    (calculateChainInfo tieFrame "A").commonResidues ≠ specCommonResidues tieFrame := by
  refine ⟨by decide, by decide, by decide⟩

/-- C5 (amended): `commonResidues` is the first five names of the
frequency-map entries stably sorted by descending count, where the entries
are enumerated in `Object.entries` order (array-index-like names first in
ascending numeric order, then the remaining names in order of first
appearance).  Consequently it holds at most five names, each a residue name
of the group, in descending order of frequency, and every residue name of
the group left out is no more frequent than any listed name. -/
theorem commonResidues_top5 (atoms : List Atom) (chainId : String) :
    ((calculateChainInfo atoms chainId).commonResidues =
      ((List.insertionSort byCountDesc
        (objEntries (residueFrequency atoms))).take 5).map Prod.fst) ∧
    ((calculateChainInfo atoms chainId).commonResidues.length ≤ 5) ∧
    ((calculateChainInfo atoms chainId).commonResidues.Pairwise
      (fun n m => resCount atoms m ≤ resCount atoms n)) ∧
    (∀ n ∈ (calculateChainInfo atoms chainId).commonResidues, n ∈ residueNames atoms) ∧
    (∀ n ∈ residueNames atoms, n ∉ (calculateChainInfo atoms chainId).commonResidues →
      ∀ m ∈ (calculateChainInfo atoms chainId).commonResidues,
        resCount atoms n ≤ resCount atoms m) := by
  have hcr : (calculateChainInfo atoms chainId).commonResidues =
      ((List.insertionSort byCountDesc
        (objEntries (residueFrequency atoms))).take 5).map Prod.fst := rfl
  set sorted := List.insertionSort byCountDesc (objEntries (residueFrequency atoms))
    with hsorted_def
  have hpermFreq : sorted.Perm (residueFrequency atoms) :=
    (List.perm_insertionSort _ _).trans (objEntries_perm _)
  have hmemVal : ∀ p ∈ sorted, p.2 = resCount atoms p.1 ∧ p.1 ∈ residueNames atoms :=
    fun p hp => mem_residueFrequency atoms p (hpermFreq.mem_iff.mp hp)
  have hs : sorted.Sorted byCountDesc := List.sorted_insertionSort byCountDesc _
  refine ⟨hcr, ?_, ?_, ?_, ?_⟩
  · rw [hcr]
    simp only [List.length_map, List.length_take]
    omega
  · rw [hcr, List.pairwise_map]
    have htake : (sorted.take 5).Pairwise byCountDesc :=
      List.Pairwise.sublist (List.take_sublist 5 sorted) hs
    refine htake.imp_of_mem ?_
    intro p q hp hq hr
    have hpv := (hmemVal p (List.take_subset 5 sorted hp)).1
    have hqv := (hmemVal q (List.take_subset 5 sorted hq)).1
    rw [← hpv, ← hqv]
    exact hr
  · intro n hn
    rw [hcr] at hn
    obtain ⟨p, hp, rfl⟩ := List.mem_map.mp hn
    exact (hmemVal p (List.take_subset 5 sorted hp)).2
  · intro n hn hncr m hm
    have hkey : n ∈ jsKeys (residueFrequency atoms) :=
      (mem_keys_residueFrequency atoms n).mpr hn
    obtain ⟨v, hv⟩ := jsGet_isSome_of_mem_keys _ _ hkey
    have hmemF : (n, v) ∈ residueFrequency atoms := jsGet_mem _ _ _ hv
    have hmemS : (n, v) ∈ sorted := hpermFreq.mem_iff.mpr hmemF
    have hnotTake : (n, v) ∉ sorted.take 5 := by
      intro hmem
      rw [hcr] at hncr
      exact hncr (List.mem_map_of_mem Prod.fst hmem)
    have hdrop : (n, v) ∈ sorted.drop 5 := by
      rcases List.mem_append.mp ((List.take_append_drop 5 sorted) ▸ hmemS) with h | h
      · exact absurd h hnotTake
      · exact h
    rw [hcr] at hm
    obtain ⟨q, hq, rfl⟩ := List.mem_map.mp hm
    have hrel : byCountDesc q (n, v) := hs.rel_of_mem_take_of_mem_drop hq hdrop
    have hqv := (hmemVal q (List.take_subset 5 sorted hq)).1
    have hnv := (mem_residueFrequency atoms (n, v) hmemF).1
    rw [← hqv, ← hnv]
    exact hrel

/-- Witness for C5 (amended) at a concrete eleven-atom group with six
residue names: the rare name "TRP" is left out of the top five and is no
more frequent than the listed "ALA". -/
theorem commonResidues_top5_witness :
    (calculateChainInfo exChain "A").commonResidues.length ≤ 5 ∧
    resCount exChain "TRP" ≤ resCount exChain "ALA" := by
  have h := commonResidues_top5 exChain "A"
  refine ⟨h.2.1, ?_⟩
  exact h.2.2.2.2 "TRP" (by decide) (by decide) "ALA" (by decide)

end MdUi
